import Mathlib

set_option linter.unusedSectionVars false

/-!
Shallow embedding of `src/src/poseidon_hash.rs`: the Poseidon permutation
round function and the sponge absorb/squeeze state machine built on it.

The sponge state (`State<F, T, RATE>.inner : [F; T]`) is modelled as a
`List F`; the const generics `T` and `RATE` become explicit `Nat`
arguments of the operations that mention them.  Rust `assert!`s and
panicking indexings are modelled with `Option`: a `none` result stands
for an aborted (panicked) execution.  The external parameter provider
(the `poseidon` crate's `Spec`) is out of scope for the source and is
modelled from the specification's description of its interface.
-/

section PoseidonModel

variable {F : Type} [CommRing F]

/-- `let pow5 = |v: &F| v.square() * v.square() * v;` from
`State::sbox_full` / `State::sbox_part`. -/
def pow5 (v : F) : F := (v * v) * (v * v) * v

/-- `State::sbox_full`: `self.inner.iter_mut().zip(constants.iter())`
replaces each paired word by `pow5(word) + constant`; words of the state
beyond the constants (impossible for equal length `T`) stay unchanged.
First argument is the state, second the constants. -/
def sbox_full : List F → List F → List F
  | x :: xs, c :: cs => (pow5 x + c) :: sbox_full xs cs
  | xs, _ => xs

/-- `State::sbox_part`: only word 0 becomes `pow5(word) + constant`.
(Rust would panic on an empty state, which needs `T = 0`; unreachable.) -/
def sbox_part (c : F) : List F → List F
  | [] => []
  | x :: xs => (pow5 x + c) :: xs

/-- Third loop of `State::pre_round` past its first (`idx == 0`) step:
`*state = *state + *constant` for the remaining (state, constant) pairs. -/
def addConstants : List F → List F → List F
  | x :: xs, c :: cs => (x + c) :: addConstants xs cs
  | xs, _ => xs

/-- Third loop of `State::pre_round`
(`.skip(1 + inputs.len()).enumerate()`): the pair at `idx == 0` gets
`*state + F::ONE + *constant`, later pairs get `*state + *constant`. -/
def padLine : List F → List F → List F
  | x :: xs, c :: cs => (x + 1 + c) :: addConstants xs cs
  | xs, _ => xs

/-- Second and third loops of `State::pre_round` over the words of index
`≥ 1`: while inputs remain, `*state = *state + *input + *constant`; once
the inputs are exhausted the remaining pairs are handled by `padLine`. -/
def absorbLine : List F → List F → List F → List F
  | xs, cs, [] => padLine xs cs
  | x :: xs, c :: cs, i :: is => (x + i + c) :: absorbLine xs cs is
  | xs, _, _ => xs

/-- Body of `State::pre_round` after its two `assert!`s:
`self.inner[0] += pre_constants[0];` then the two iterator loops over the
words of index `≥ 1`.  (Rust would panic on an empty state/constant
array, which needs `T = 0`; unreachable.) -/
def pre_round_core (inputs cs s : List F) : List F :=
  match s, cs with
  | x :: xs, c :: cs0 => (x + c) :: absorbLine xs cs0 inputs
  | s, _ => s

/-- `State::pre_round` with its `assert!(RATE == T - 1)` and
`assert!(inputs.len() <= RATE)` modelled as an `Option` guard. -/
def pre_round (T RATE : ℕ) (inputs cs s : List F) : Option (List F) :=
  if RATE = T - 1 ∧ inputs.length ≤ RATE then some (pre_round_core inputs cs s) else none

/-- The fold inside `State::apply_mds`:
`row.iter().zip(self.inner.iter()).fold(F::ZERO, |acc, (mij, sj)| acc + *sj * *mij)`. -/
def dotFoldMds (row s : List F) : F :=
  (row.zip s).foldl (fun acc p => acc + p.2 * p.1) 0

/-- `State::apply_mds`: each row of the matrix is folded against the old
state; the rows' results form the new state. -/
def apply_mds (mds : List (List F)) (s : List F) : List F :=
  mds.map (fun row => dotFoldMds row s)

/-- Modelled from the spec: the sparse matrix representation supplied by
the external parameter provider — a length-`T` row vector plus a
length-`RATE` (= `T - 1`) column vector `col_hat` (spec section 3). -/
structure SparseMDSMatrix (F : Type) where
  row : List F
  col_hat : List F
deriving DecidableEq

/-- The fold inside `State::apply_sparse_mds`:
`mds.row().iter().cloned().zip(self.inner.iter()).fold(F::ZERO, |acc, (vi, si)| acc + vi * si)`. -/
def dotFoldSparse (row s : List F) : F :=
  (row.zip s).foldl (fun acc p => acc + p.1 * p.2) 0

/-- `State::apply_sparse_mds`: word 0 becomes the row/state fold; it is
chained with `col_hat.zip(state.skip(1))` mapped through
`coeff * self.inner[0] + state`, where `self.inner` is still the state
from before the call (the Rust reassigns `self.inner` only after
`collect()`). -/
def apply_sparse_mds (m : SparseMDSMatrix F) (s : List F) : List F :=
  dotFoldSparse m.row s :: (m.col_hat.zip (s.drop 1)).map (fun p => p.1 * s.headD 0 + p.2)

/-- Modelled from the spec: the immutable ParameterSet produced by the
external parameter provider (the `poseidon` crate's `Spec`), exposing
exactly the accessors the source uses: `r_f()`, `constants().start()`,
`constants().partial()` (here `part_consts`), `constants().end()` (here
`end_consts`), `mds_matrices().mds().rows()`,
`mds_matrices().pre_sparse_mds().rows()`,
`mds_matrices().sparse_matrices()` (spec sections 3 and 6). -/
structure Spec (F : Type) where
  r_f : ℕ
  start : List (List F)
  part_consts : List F
  end_consts : List (List F)
  mds : List (List F)
  pre_sparse_mds : List (List F)
  sparse_matrices : List (SparseMDSMatrix F)
deriving DecidableEq

/-- Modelled from the spec: well-formedness of the ParameterSet, i.e. the
invariants the spec states for the external provider's output (sections 3
and 6): `r_f` even and positive, `r_f/2` start and end constant vectors
of length `T`, `r_p` partial constants and sparse matrices, `T × T` dense
and pre-sparse matrices, sparse rows of length `T` and `col_hat`s of
length `RATE`. -/
def Spec.WF (sp : Spec F) (T RATE r_p : ℕ) : Prop :=
  2 ≤ sp.r_f ∧ sp.r_f % 2 = 0
    ∧ sp.start.length = sp.r_f / 2
    ∧ (∀ c ∈ sp.start, c.length = T)
    ∧ sp.part_consts.length = r_p
    ∧ sp.end_consts.length = sp.r_f / 2
    ∧ (∀ c ∈ sp.end_consts, c.length = T)
    ∧ sp.mds.length = T
    ∧ (∀ r ∈ sp.mds, r.length = T)
    ∧ sp.pre_sparse_mds.length = T
    ∧ (∀ r ∈ sp.pre_sparse_mds, r.length = T)
    ∧ sp.sparse_matrices.length = r_p
    ∧ (∀ m ∈ sp.sparse_matrices, m.row.length = T ∧ m.col_hat.length = RATE)

/-- The three start-constant selections made by
`PoseidonHash::permutation`'s first half, in source order:
`constants[0]` (panics when empty, hence `Option`), the loop list
`constants.iter().skip(1).take(r_f - 1)` where the local `r_f` is
`self.spec.r_f() / 2`, and `constants.last().unwrap()`. -/
def startSchedule (sp : Spec F) : Option (List F × List (List F) × List F) :=
  (sp.start.head?).bind fun c0 =>
    (sp.start.getLast?).map fun clast =>
      (c0, (sp.start.drop 1).take (sp.r_f / 2 - 1), clast)

/-- `PoseidonHash::permutation`: first half of the full rounds
(the absorbing `pre_round`, the further full rounds, the transition round
with the pre-sparse matrix), the partial rounds over
`constants.iter().zip(sparse_matrices.iter())`, the second half of the
full rounds, and the final full round with an all-zero constant vector. -/
def permutation (T RATE : ℕ) (sp : Spec F) (inputs s0 : List F) : Option (List F) :=
  (startSchedule sp).bind fun sched =>
    (pre_round T RATE inputs sched.1 s0).bind fun s1 =>
      let s2 := sched.2.1.foldl (fun s c => apply_mds sp.mds (sbox_full s c)) s1
      let s3 := apply_mds sp.pre_sparse_mds (sbox_full s2 sched.2.2)
      let s4 := (sp.part_consts.zip sp.sparse_matrices).foldl
        (fun s pc => apply_sparse_mds pc.2 (sbox_part pc.1 s)) s3
      let s5 := sp.end_consts.foldl (fun s c => apply_mds sp.mds (sbox_full s c)) s4
      some (apply_mds sp.mds (sbox_full s5 (List.replicate T 0)))

/-- `PoseidonHash<C, F, T, RATE>`: the sponge hasher owning a
ParameterSet, a permutation state and the pending buffer. -/
structure PoseidonHash (F : Type) where
  spec : Spec F
  state : List F
  buf : List F
deriving DecidableEq

/-- `ROTrait::new` for `PoseidonHash`.  The initial state is modelled
from the spec (section 3): `poseidon::State::default().words()` is the
all-zero state (every word the additive identity).  Note the constructor
performs no dimension check whatsoever. -/
def PoseidonHash.new (T : ℕ) (sp : Spec F) : PoseidonHash F :=
  ⟨sp, List.replicate T 0, []⟩

/-- `PoseidonHash::update`: `self.buf.extend_from_slice(elements)`. -/
def PoseidonHash.update (h : PoseidonHash F) (elements : List F) : PoseidonHash F :=
  ⟨h.spec, h.state, h.buf ++ elements⟩

/-- Fuelled worker for `chunks`; the fuel (initially the list length,
which bounds the number of chunks) only makes the recursion structural. -/
def chunksFuel (k : ℕ) : ℕ → List F → List (List F)
  | _, [] => []
  | 0, _ :: _ => []
  | fuel + 1, x :: xs => (x :: xs.take (k - 1)) :: chunksFuel k fuel (xs.drop (k - 1))

/-- `buf.chunks(RATE)` from `PoseidonHash::output`: consecutive chunks of
`k` elements, the last possibly shorter.  (Rust's `chunks` panics for
`k = 0`; that never occurs here since `RATE ≥ 1` in every usable
configuration.) -/
def chunks (k : ℕ) (l : List F) : List (List F) := chunksFuel k l.length l

/-- `PoseidonHash::output`: takes the buffer (leaving it empty), computes
`exact = buf.len() % RATE == 0` from the pre-drain length, permutes each
`RATE`-chunk, performs one extra `permutation(&[])` when `exact`, and
returns `self.state.inner[1]` (panics — `none` — when the state has no
word 1). -/
def PoseidonHash.output (T RATE : ℕ) (h : PoseidonHash F) : Option (F × PoseidonHash F) :=
  ((chunks RATE h.buf).foldlM (fun s c => permutation T RATE h.spec c s) h.state).bind fun s =>
    (if h.buf.length % RATE = 0 then permutation T RATE h.spec [] s else some s).bind fun s =>
      (s[1]?).bind fun d => some (d, ⟨h.spec, s, []⟩)

/-- `ROTrait::squeeze`: `self.output()`. -/
def PoseidonHash.squeeze (T RATE : ℕ) (h : PoseidonHash F) : Option (F × PoseidonHash F) :=
  PoseidonHash.output T RATE h

end PoseidonModel

/-! ## Helper lemmas (shared) -/

section Lemmas

variable {F : Type} [CommRing F]

theorem length_addConstants (xs cs : List F) : (addConstants xs cs).length = xs.length := by
  induction xs generalizing cs with
  | nil => cases cs <;> rfl
  | cons x xs ih => cases cs with
    | nil => rfl
    | cons c cs => simp [addConstants, ih]

theorem length_padLine (xs cs : List F) : (padLine xs cs).length = xs.length := by
  cases xs with
  | nil => cases cs <;> rfl
  | cons x xs => cases cs with
    | nil => rfl
    | cons c cs => simp [padLine, length_addConstants]

theorem length_absorbLine (xs cs is : List F) : (absorbLine xs cs is).length = xs.length := by
  induction is generalizing xs cs with
  | nil => simpa [absorbLine] using length_padLine xs cs
  | cons i is ih => cases xs with
    | nil => cases cs <;> rfl
    | cons x xs => cases cs with
      | nil => rfl
      | cons c cs => simp [absorbLine, ih]

theorem length_pre_round_core (inputs cs s : List F) :
    (pre_round_core inputs cs s).length = s.length := by
  cases s with
  | nil => cases cs <;> rfl
  | cons x xs => cases cs with
    | nil => rfl
    | cons c cs => simp [pre_round_core, length_absorbLine]

theorem length_sbox_full (s cs : List F) : (sbox_full s cs).length = s.length := by
  induction s generalizing cs with
  | nil => cases cs <;> rfl
  | cons x xs ih => cases cs with
    | nil => rfl
    | cons c cs => simp [sbox_full, ih]

theorem length_sbox_part (c : F) (s : List F) : (sbox_part c s).length = s.length := by
  cases s <;> rfl

theorem length_apply_mds (mds : List (List F)) (s : List F) :
    (apply_mds mds s).length = mds.length := by
  simp [apply_mds]

theorem length_apply_sparse_mds (m : SparseMDSMatrix F) (s : List F) :
    (apply_sparse_mds m s).length = 1 + min m.col_hat.length (s.length - 1) := by
  simp [apply_sparse_mds, Nat.add_comm]

theorem list_getD_drop {α : Type} (l : List α) (k i : ℕ) (d : α) :
    (l.drop k).getD i d = l.getD (k + i) d := by
  induction k generalizing l with
  | zero => simp
  | succ k ih => cases l with
    | nil => simp
    | cons x xs =>
      simp only [List.drop_succ_cons, ih xs, Nat.succ_add, List.getD_cons_succ]

theorem addConstants_getD (xs cs : List F) (i : ℕ) (h1 : i < xs.length)
    (h2 : i < cs.length) :
    (addConstants xs cs).getD i 0 = xs.getD i 0 + cs.getD i 0 := by
  induction xs generalizing cs i with
  | nil => simp at h1
  | cons x xs ih => cases cs with
    | nil => simp at h2
    | cons c cs => cases i with
      | zero => simp [addConstants]
      | succ i =>
        simp only [addConstants, List.getD_cons_succ]
        exact ih cs i (by simpa using h1) (by simpa using h2)

theorem addConstants_getD_ge (xs cs : List F) (i : ℕ) (h2 : cs.length ≤ i) :
    (addConstants xs cs).getD i 0 = xs.getD i 0 := by
  induction xs generalizing cs i with
  | nil => cases cs <;> rfl
  | cons x xs ih => cases cs with
    | nil => rfl
    | cons c cs => cases i with
      | zero => simp at h2
      | succ i =>
        simp only [addConstants, List.getD_cons_succ]
        exact ih cs i (by simpa using h2)

theorem padLine_getD_zero (x c : F) (xs cs : List F) :
    (padLine (x :: xs) (c :: cs)).getD 0 0 = x + 1 + c := by
  simp [padLine]

theorem padLine_getD_succ (x c : F) (xs cs : List F) (i : ℕ) :
    (padLine (x :: xs) (c :: cs)).getD (i + 1) 0 = (addConstants xs cs).getD i 0 := by
  simp [padLine]

theorem absorbLine_getD_lt (xs cs is : List F) (i : ℕ) (hi : i < is.length)
    (hx : i < xs.length) (hc : i < cs.length) :
    (absorbLine xs cs is).getD i 0 = xs.getD i 0 + is.getD i 0 + cs.getD i 0 := by
  induction is generalizing xs cs i with
  | nil => simp at hi
  | cons j is ih => cases xs with
    | nil => simp at hx
    | cons x xs => cases cs with
      | nil => simp at hc
      | cons c cs => cases i with
        | zero => simp [absorbLine]
        | succ i =>
          simp only [absorbLine, List.getD_cons_succ]
          exact ih xs cs i (by simpa using hi) (by simpa using hx) (by simpa using hc)

theorem absorbLine_getD_ge (xs cs is : List F) (i : ℕ) (hi : is.length ≤ i) :
    (absorbLine xs cs is).getD i 0
      = (padLine (xs.drop is.length) (cs.drop is.length)).getD (i - is.length) 0 := by
  induction is generalizing xs cs i with
  | nil => simp [absorbLine]
  | cons j is ih => cases xs with
    | nil =>
      cases cs <;> simp [absorbLine, List.drop_nil, padLine, List.getD_nil]
    | cons x xs => cases cs with
      | nil =>
        have hi1 : is.length + 1 ≤ i := by simpa using hi
        simp only [absorbLine, List.length_cons, List.drop_succ_cons, List.drop_nil]
        have h1 : (padLine (xs.drop is.length) []).getD (i - (is.length + 1)) 0
            = (xs.drop is.length).getD (i - (is.length + 1)) 0 := by
          cases xs.drop is.length <;> rfl
        have h2 : (x :: xs).getD i 0 = (xs.drop is.length).getD (i - (is.length + 1)) 0 := by
          obtain ⟨i, rfl⟩ : ∃ j, i = j + 1 := ⟨i - 1, by omega⟩
          rw [List.getD_cons_succ, list_getD_drop]
          congr 1
          omega
        rw [h1, h2]
      | cons c cs => cases i with
        | zero => simp at hi
        | succ i =>
          simp only [absorbLine, List.getD_cons_succ, List.length_cons,
            List.drop_succ_cons, Nat.succ_sub_succ]
          exact ih xs cs i (by simpa using hi)

end Lemmas

/-! ## Chunking lemmas -/

section ChunkLemmas

variable {F : Type} [CommRing F]

theorem chunksFuel_congr (k : ℕ) :
    ∀ f1 f2 (l : List F), l.length ≤ f1 → l.length ≤ f2 →
      chunksFuel k f1 l = chunksFuel k f2 l := by
  intro f1
  induction f1 with
  | zero =>
    intro f2 l h1 _
    have : l = [] := List.length_eq_zero.mp (Nat.le_zero.mp h1)
    subst this
    cases f2 <;> rfl
  | succ f1 ih =>
    intro f2 l h1 h2
    cases l with
    | nil => cases f2 <;> rfl
    | cons x xs =>
      cases f2 with
      | zero => simp at h2
      | succ f2 =>
        have h1' : xs.length ≤ f1 := by simp at h1; omega
        have h2' : xs.length ≤ f2 := by simp at h2; omega
        simp only [chunksFuel]
        rw [ih f2 (xs.drop (k - 1)) (by simp; omega) (by simp; omega)]

theorem chunks_nil (k : ℕ) : chunks k ([] : List F) = [] := rfl

theorem chunks_cons (k : ℕ) (x : F) (xs : List F) :
    chunks k (x :: xs) = (x :: xs.take (k - 1)) :: chunks k (xs.drop (k - 1)) := by
  show chunksFuel k (xs.length + 1) (x :: xs) = _
  rw [chunksFuel]
  unfold chunks
  rw [chunksFuel_congr k xs.length (xs.drop (k - 1)).length (xs.drop (k - 1)) (by simp) le_rfl]

theorem chunks_length_le (k : ℕ) (hk : 1 ≤ k) :
    ∀ n (l : List F), l.length = n → ∀ c ∈ chunks k l, c.length ≤ k := by
  intro n
  induction n using Nat.strong_induction_on with
  | _ n ih =>
    intro l hl c hc
    cases l with
    | nil => simp [chunks_nil] at hc
    | cons x xs =>
      have hxl : xs.length + 1 = n := by simpa using hl
      rw [chunks_cons] at hc
      rcases List.mem_cons.mp hc with h | h
      · subst h
        simp only [List.length_cons, List.length_take]
        omega
      · exact ih (xs.drop (k - 1)).length (by simp; omega) _ rfl c h

theorem chunks_count (k : ℕ) (hk : 1 ≤ k) :
    ∀ n (l : List F), l.length = n → (chunks k l).length = (l.length + k - 1) / k := by
  intro n
  induction n using Nat.strong_induction_on with
  | _ n ih =>
    intro l hl
    cases l with
    | nil =>
      have h0 : (k - 1) / k = 0 := Nat.div_eq_of_lt (by omega)
      simp [chunks_nil, h0]
    | cons x xs =>
      have hxl : xs.length + 1 = n := by simpa using hl
      rw [chunks_cons]
      simp only [List.length_cons]
      rw [ih (xs.drop (k - 1)).length (by simp; omega) _ rfl]
      simp only [List.length_drop]
      have hk0 : 0 < k := hk
      have e1 : xs.length + 1 + k - 1 = xs.length + k := by omega
      rcases le_or_lt (k - 1) xs.length with hmk | hmk
      · have e2 : xs.length - (k - 1) + k - 1 = xs.length := by omega
        rw [e2, e1, Nat.add_div_right _ hk0]
      · have e3 : xs.length - (k - 1) = 0 := by omega
        rw [e3, e1, Nat.add_div_right _ hk0, Nat.zero_add,
          Nat.div_eq_of_lt (by omega), Nat.div_eq_of_lt (by omega)]

end ChunkLemmas

/-! ## Fold and pointwise lemmas -/

section FoldLemmas

variable {F : Type} [CommRing F]

theorem foldl_add_shift {α : Type} (g : α → F) (l : List α) (a : F) :
    l.foldl (fun acc p => acc + g p) a = a + l.foldl (fun acc p => acc + g p) 0 := by
  induction l generalizing a with
  | nil => simp
  | cons p ps ih =>
    simp only [List.foldl_cons]
    rw [ih (a + g p), ih (0 + g p), zero_add, add_assoc]

theorem dotFoldSparse_cons (r x : F) (rs xs : List F) :
    dotFoldSparse (r :: rs) (x :: xs) = r * x + dotFoldSparse rs xs := by
  simp only [dotFoldSparse, List.zip_cons_cons, List.foldl_cons, zero_add]
  exact foldl_add_shift (fun p => p.1 * p.2) (rs.zip xs) (r * x)

theorem dotFoldSparse_eq_sum (row s : List F) :
    dotFoldSparse row s
      = Finset.sum (Finset.range (min row.length s.length))
          (fun j => row.getD j 0 * s.getD j 0) := by
  induction row generalizing s with
  | nil => simp [dotFoldSparse]
  | cons r rs ih =>
    cases s with
    | nil => simp [dotFoldSparse]
    | cons x xs =>
      rw [dotFoldSparse_cons, ih xs]
      simp only [List.length_cons, Nat.succ_min_succ]
      rw [Finset.sum_range_succ']
      simp only [List.getD_cons_succ, List.getD_cons_zero]
      rw [add_comm]

theorem map_zip_getD (g : F × F → F) (a b : List F) (i : ℕ)
    (ha : i < a.length) (hb : i < b.length) :
    ((a.zip b).map g).getD i 0 = g (a.getD i 0, b.getD i 0) := by
  induction a generalizing b i with
  | nil => simp at ha
  | cons x xs ih =>
    cases b with
    | nil => simp at hb
    | cons y ys =>
      cases i with
      | zero => simp
      | succ i =>
        simp only [List.zip_cons_cons, List.map_cons, List.getD_cons_succ]
        exact ih ys i (by simpa using ha) (by simpa using hb)

theorem headD_eq_getD (l : List F) : l.headD 0 = l.getD 0 0 := by
  cases l <;> rfl

theorem absorbLine_getD_pad (xs cs is : List F)
    (hx : is.length < xs.length) (hc : is.length < cs.length) :
    (absorbLine xs cs is).getD is.length 0
      = xs.getD is.length 0 + 1 + cs.getD is.length 0 := by
  induction is generalizing xs cs with
  | nil =>
    cases xs with
    | nil => simp at hx
    | cons x xs =>
      cases cs with
      | nil => simp at hc
      | cons c cs => simp [absorbLine, padLine]
  | cons j is ih =>
    cases xs with
    | nil => simp at hx
    | cons x xs =>
      cases cs with
      | nil => simp at hc
      | cons c cs =>
        simp only [absorbLine, List.length_cons, List.getD_cons_succ]
        exact ih xs cs (by simpa using hx) (by simpa using hc)

theorem absorbLine_getD_rest (xs cs is : List F) (i : ℕ)
    (hi : is.length < i) (hx : i < xs.length) (hc : i < cs.length) :
    (absorbLine xs cs is).getD i 0 = xs.getD i 0 + cs.getD i 0 := by
  induction is generalizing xs cs i with
  | nil =>
    cases xs with
    | nil => simp at hx
    | cons x xs =>
      cases cs with
      | nil => simp at hc
      | cons c cs =>
        obtain ⟨u, rfl⟩ : ∃ u, i = u + 1 := ⟨i - 1, by omega⟩
        simp only [absorbLine, padLine, List.getD_cons_succ]
        exact addConstants_getD xs cs u (by simpa using hx) (by simpa using hc)
  | cons j is ih =>
    cases xs with
    | nil => simp at hx
    | cons x xs =>
      cases cs with
      | nil => simp at hc
      | cons c cs =>
        obtain ⟨u, rfl⟩ : ∃ u, i = u + 1 := ⟨i - 1, by omega⟩
        simp only [absorbLine, List.getD_cons_succ]
        exact ih xs cs u (by simpa using hi) (by simpa using hx) (by simpa using hc)

end FoldLemmas

/-! ## Claim theorems: state operations -/

section StateClaims

variable {F : Type} [CommRing F]

/-- C4: for every input slice of length at most `RATE` and every constant
vector of length `T`, the absorb-and-pad round (`pre_round`) updates the
state so that word 0 has `pre_constants[0]` added, each word `i` in
`1..1+len(inputs)` has `inputs[i-1] + pre_constants[i]` added, the first
word after the absorbed inputs has the field element one plus its round
constant added, and every remaining word has only its round constant
added. -/
theorem pre_round_pointwise (T RATE : ℕ) (inputs cs s : List F)
    (hs : s.length = T) (hcs : cs.length = T) (hR : RATE = T - 1)
    (hin : inputs.length ≤ RATE) (hT : 1 ≤ T) :
    pre_round T RATE inputs cs s = some (pre_round_core inputs cs s)
      ∧ (pre_round_core inputs cs s).getD 0 0 = s.getD 0 0 + cs.getD 0 0
      ∧ (∀ i, 1 ≤ i → i < 1 + inputs.length →
          (pre_round_core inputs cs s).getD i 0
            = s.getD i 0 + inputs.getD (i - 1) 0 + cs.getD i 0)
      ∧ (1 + inputs.length < T →
          (pre_round_core inputs cs s).getD (1 + inputs.length) 0
            = s.getD (1 + inputs.length) 0 + 1 + cs.getD (1 + inputs.length) 0)
      ∧ (∀ i, 1 + inputs.length < i → i < T →
          (pre_round_core inputs cs s).getD i 0 = s.getD i 0 + cs.getD i 0) := by
  cases s with
  | nil => rw [List.length_nil] at hs; omega
  | cons x xs =>
    cases cs with
    | nil => rw [List.length_nil] at hcs; omega
    | cons c cs0 =>
      have hxs : xs.length = T - 1 := by simp at hs; omega
      have hcs0 : cs0.length = T - 1 := by simp at hcs; omega
      refine ⟨by rw [pre_round, if_pos ⟨hR, hin⟩], by simp [pre_round_core], ?_, ?_, ?_⟩
      · intro i h1 h2
        obtain ⟨j, rfl⟩ : ∃ j, i = j + 1 := ⟨i - 1, by omega⟩
        simp only [pre_round_core, List.getD_cons_succ, Nat.add_sub_cancel]
        exact absorbLine_getD_lt xs cs0 inputs j (by omega) (by omega) (by omega)
      · intro hpad
        have e : 1 + inputs.length = inputs.length + 1 := Nat.add_comm 1 _
        rw [e]
        simp only [pre_round_core, List.getD_cons_succ]
        exact absorbLine_getD_pad xs cs0 inputs (by omega) (by omega)
      · intro i h1 h2
        obtain ⟨j, rfl⟩ : ∃ j, i = j + 1 := ⟨i - 1, by omega⟩
        simp only [pre_round_core, List.getD_cons_succ]
        exact absorbLine_getD_rest xs cs0 inputs j (by omega) (by omega) (by omega)

/-- Witness for `pre_round_pointwise` at `T = 3`, `RATE = 2`,
`inputs = [5]`, over `ZMod 7`. -/
theorem pre_round_pointwise_witness :
    (([4, 6, 1] : List (ZMod 7)).length = 3 ∧ ([2, 3, 5] : List (ZMod 7)).length = 3
        ∧ 2 = 3 - 1 ∧ ([5] : List (ZMod 7)).length ≤ 2 ∧ 1 ≤ 3)
      ∧ (pre_round 3 2 [5] [2, 3, 5] ([4, 6, 1] : List (ZMod 7))
            = some (pre_round_core [5] [2, 3, 5] [4, 6, 1])
          ∧ (pre_round_core [5] [2, 3, 5] ([4, 6, 1] : List (ZMod 7))).getD 0 0
            = ([4, 6, 1] : List (ZMod 7)).getD 0 0 + ([2, 3, 5] : List (ZMod 7)).getD 0 0
          ∧ (∀ i, 1 ≤ i → i < 1 + ([5] : List (ZMod 7)).length →
              (pre_round_core [5] [2, 3, 5] ([4, 6, 1] : List (ZMod 7))).getD i 0
                = ([4, 6, 1] : List (ZMod 7)).getD i 0
                  + ([5] : List (ZMod 7)).getD (i - 1) 0
                  + ([2, 3, 5] : List (ZMod 7)).getD i 0)
          ∧ (1 + ([5] : List (ZMod 7)).length < 3 →
              (pre_round_core [5] [2, 3, 5] ([4, 6, 1] : List (ZMod 7))).getD
                  (1 + ([5] : List (ZMod 7)).length) 0
                = ([4, 6, 1] : List (ZMod 7)).getD (1 + ([5] : List (ZMod 7)).length) 0 + 1
                  + ([2, 3, 5] : List (ZMod 7)).getD (1 + ([5] : List (ZMod 7)).length) 0)
          ∧ (∀ i, 1 + ([5] : List (ZMod 7)).length < i → i < 3 →
              (pre_round_core [5] [2, 3, 5] ([4, 6, 1] : List (ZMod 7))).getD i 0
                = ([4, 6, 1] : List (ZMod 7)).getD i 0
                  + ([2, 3, 5] : List (ZMod 7)).getD i 0)) :=
  ⟨⟨by decide, by decide, by decide, by decide, by decide⟩,
    pre_round_pointwise 3 2 [5] [2, 3, 5] [4, 6, 1]
      (by decide) (by decide) (by decide) (by decide) (by decide)⟩

/-- C10: when the input slice passed to `pre_round` has length exactly
`RATE`, no word of the state receives the field-one padding term: word 0
gets `pre_constants[0]` added and each word `i` in `1..T` gets
`inputs[i-1] + pre_constants[i]` added. -/
theorem pre_round_full_rate_no_padding (T RATE : ℕ) (inputs cs s : List F)
    (hs : s.length = T) (hcs : cs.length = T) (hR : RATE = T - 1)
    (hfull : inputs.length = RATE) (hT : 1 ≤ T) :
    pre_round T RATE inputs cs s = some (pre_round_core inputs cs s)
      ∧ (pre_round_core inputs cs s).getD 0 0 = s.getD 0 0 + cs.getD 0 0
      ∧ ∀ i, 1 ≤ i → i < T →
          (pre_round_core inputs cs s).getD i 0
            = s.getD i 0 + inputs.getD (i - 1) 0 + cs.getD i 0 := by
  cases s with
  | nil => rw [List.length_nil] at hs; omega
  | cons x xs =>
    cases cs with
    | nil => rw [List.length_nil] at hcs; omega
    | cons c cs0 =>
      have hxs : xs.length = T - 1 := by simp at hs; omega
      have hcs0 : cs0.length = T - 1 := by simp at hcs; omega
      refine ⟨by rw [pre_round, if_pos ⟨hR, le_of_eq hfull⟩], by simp [pre_round_core], ?_⟩
      intro i h1 h2
      obtain ⟨j, rfl⟩ : ∃ j, i = j + 1 := ⟨i - 1, by omega⟩
      simp only [pre_round_core, List.getD_cons_succ, Nat.add_sub_cancel]
      exact absorbLine_getD_lt xs cs0 inputs j (by omega) (by omega) (by omega)

/-- Witness for `pre_round_full_rate_no_padding` at `T = 3`, `RATE = 2`,
`inputs = [5, 6]`, over `ZMod 7`. -/
theorem pre_round_full_rate_no_padding_witness :
    (([4, 6, 1] : List (ZMod 7)).length = 3 ∧ ([2, 3, 5] : List (ZMod 7)).length = 3
        ∧ 2 = 3 - 1 ∧ ([5, 6] : List (ZMod 7)).length = 2 ∧ 1 ≤ 3)
      ∧ (pre_round 3 2 [5, 6] [2, 3, 5] ([4, 6, 1] : List (ZMod 7))
            = some (pre_round_core [5, 6] [2, 3, 5] [4, 6, 1])
          ∧ (pre_round_core [5, 6] [2, 3, 5] ([4, 6, 1] : List (ZMod 7))).getD 0 0
            = ([4, 6, 1] : List (ZMod 7)).getD 0 0 + ([2, 3, 5] : List (ZMod 7)).getD 0 0
          ∧ ∀ i, 1 ≤ i → i < 3 →
              (pre_round_core [5, 6] [2, 3, 5] ([4, 6, 1] : List (ZMod 7))).getD i 0
                = ([4, 6, 1] : List (ZMod 7)).getD i 0
                  + ([5, 6] : List (ZMod 7)).getD (i - 1) 0
                  + ([2, 3, 5] : List (ZMod 7)).getD i 0) :=
  ⟨⟨by decide, by decide, by decide, by decide, by decide⟩,
    pre_round_full_rate_no_padding 3 2 [5, 6] [2, 3, 5] [4, 6, 1]
      (by decide) (by decide) (by decide) (by decide) (by decide)⟩

/-- C5: `apply_sparse_mds` sets word 0 to the dot product of the sparse
matrix's row vector with the full old state, and sets each other word
`i` (`1 ≤ i < T`) to `col_hat[i-1] * old_state[0] + old_state[i]`; being
a pure function of the old state, every right-hand side is evaluated on
the state as it was before the call. -/
theorem apply_sparse_mds_pointwise (T : ℕ) (m : SparseMDSMatrix F) (s : List F)
    (hrow : m.row.length = T) (hcol : m.col_hat.length = T - 1)
    (hs : s.length = T) (hT : 1 ≤ T) :
    (apply_sparse_mds m s).getD 0 0
        = Finset.sum (Finset.range T) (fun j => m.row.getD j 0 * s.getD j 0)
      ∧ ∀ i, 1 ≤ i → i < T →
          (apply_sparse_mds m s).getD i 0
            = m.col_hat.getD (i - 1) 0 * s.getD 0 0 + s.getD i 0 := by
  constructor
  · simp only [apply_sparse_mds, List.getD_cons_zero]
    rw [dotFoldSparse_eq_sum, hrow, hs, min_self]
  · intro i h1 h2
    obtain ⟨j, rfl⟩ : ∃ j, i = j + 1 := ⟨i - 1, by omega⟩
    simp only [apply_sparse_mds, List.getD_cons_succ, Nat.add_sub_cancel]
    rw [map_zip_getD _ _ _ _ (by omega) (by simp; omega)]
    rw [headD_eq_getD, list_getD_drop]
    norm_num [Nat.add_comm 1 j]

/-- Witness for `apply_sparse_mds_pointwise` at `T = 3` over `ZMod 7`. -/
theorem apply_sparse_mds_pointwise_witness :
    ((⟨[1, 2, 3], [4, 0]⟩ : SparseMDSMatrix (ZMod 7)).row.length = 3
        ∧ (⟨[1, 2, 3], [4, 0]⟩ : SparseMDSMatrix (ZMod 7)).col_hat.length = 3 - 1
        ∧ ([2, 5, 6] : List (ZMod 7)).length = 3 ∧ 1 ≤ 3)
      ∧ ((apply_sparse_mds (⟨[1, 2, 3], [4, 0]⟩ : SparseMDSMatrix (ZMod 7)) [2, 5, 6]).getD 0 0
          = Finset.sum (Finset.range 3)
              (fun j => (⟨[1, 2, 3], [4, 0]⟩ : SparseMDSMatrix (ZMod 7)).row.getD j 0
                * ([2, 5, 6] : List (ZMod 7)).getD j 0)
        ∧ ∀ i, 1 ≤ i → i < 3 →
            (apply_sparse_mds (⟨[1, 2, 3], [4, 0]⟩ : SparseMDSMatrix (ZMod 7)) [2, 5, 6]).getD i 0
              = (⟨[1, 2, 3], [4, 0]⟩ : SparseMDSMatrix (ZMod 7)).col_hat.getD (i - 1) 0
                  * ([2, 5, 6] : List (ZMod 7)).getD 0 0
                + ([2, 5, 6] : List (ZMod 7)).getD i 0) :=
  ⟨⟨by decide, by decide, by decide, by decide⟩,
    apply_sparse_mds_pointwise 3 ⟨[1, 2, 3], [4, 0]⟩ [2, 5, 6]
      (by decide) (by decide) (by decide) (by decide)⟩

/-- C9: `update` (absorb) only appends its elements to the pending
buffer, in order: the permutation state and the parameter set are left
completely unchanged, no permutation is performed, and consecutive calls
compose by list append (so it may be called any number of times). -/
theorem update_only_appends (h : PoseidonHash F) (es1 es2 : List F) :
    (h.update es1).state = h.state
      ∧ (h.update es1).spec = h.spec
      ∧ (h.update es1).buf = h.buf ++ es1
      ∧ (h.update es1).update es2 = h.update (es1 ++ es2) := by
  refine ⟨rfl, rfl, rfl, ?_⟩
  simp [PoseidonHash.update, List.append_assoc]

end StateClaims

/-! ## Claim theorems: squeeze protocol -/

section SqueezeClaims

variable {F : Type} [CommRing F]

/-- C2: `output` computes the flag `exact = buf.len() % RATE == 0` from
the pre-drain buffer length (so `exact` is true for the empty buffer,
since `0 % RATE = 0`), and exactly when this flag is true the state fold
processes one additional empty-input permutation call after all
`RATE`-sized chunks of the drained buffer. -/
theorem output_exact_extra_permutation (T RATE : ℕ) (h : PoseidonHash F) :
    PoseidonHash.output T RATE h
        = ((chunks RATE h.buf
              ++ if h.buf.length % RATE = 0 then [[]] else []).foldlM
            (fun s c => permutation T RATE h.spec c s) h.state).bind
          (fun s => (s[1]?).bind fun d => some (d, ⟨h.spec, s, []⟩))
      ∧ chunks RATE ([] : List F) = []
      ∧ (0 : ℕ) % RATE = 0 := by
  refine ⟨?_, rfl, Nat.zero_mod RATE⟩
  by_cases hx : h.buf.length % RATE = 0
  · simp only [PoseidonHash.output, hx, if_true, List.foldlM_append, List.foldlM_cons,
      List.foldlM_nil, Option.bind_eq_bind, Option.pure_def]
    cases (chunks RATE h.buf).foldlM (fun s c => permutation T RATE h.spec c s) h.state with
    | none => rfl
    | some s1 =>
      simp only [Option.some_bind]
      cases permutation T RATE h.spec [] s1 with
      | none => rfl
      | some s2 => simp
  · simp only [PoseidonHash.output, hx, if_false, List.append_nil]
    cases (chunks RATE h.buf).foldlM (fun s c => permutation T RATE h.spec c s) h.state with
    | none => rfl
    | some s1 => simp

/-- C7: whenever `squeeze` returns, the digest it returns is the
post-permutation state's word at index 1 (word 0, the capacity/pivot
word, is never surfaced). -/
theorem squeeze_returns_word_one (T RATE : ℕ) (h : PoseidonHash F)
    (d : F) (h2 : PoseidonHash F)
    (hout : PoseidonHash.squeeze T RATE h = some (d, h2)) :
    h2.state[1]? = some d ∧ d = h2.state.getD 1 0 := by
  unfold PoseidonHash.squeeze PoseidonHash.output at hout
  obtain ⟨s1, e1, hout⟩ := Option.bind_eq_some.mp hout
  obtain ⟨s2, e2, hout⟩ := Option.bind_eq_some.mp hout
  obtain ⟨d2, e3, hout⟩ := Option.bind_eq_some.mp hout
  rw [Option.some.injEq, Prod.mk.injEq] at hout
  obtain ⟨rfl, rfl⟩ := hout
  refine ⟨e3, ?_⟩
  rw [List.getD_eq_getElem?_getD, e3, Option.getD_some]

end SqueezeClaims

/-! ## Concrete parameter sets for witnesses and counterexamples -/

section ConcreteSpecs

/-- A minimal concrete ParameterSet over `ZMod 5` with `T = 2`,
`RATE = 1`, `r_f = 2`, `r_p = 0`, used to evaluate a full squeeze. -/
def specW : Spec (ZMod 5) :=
  ⟨2, [[1, 2]], [], [], [[1, 0], [0, 1]], [[1, 0], [0, 1]], []⟩

/-- A concrete ParameterSet over `ZMod 5` used with the mismatched
dimensions `T = 3`, `RATE = 3`. -/
def spec3 : Spec (ZMod 5) :=
  ⟨2, [[1, 2, 3]], [], [], [[1, 0, 0], [0, 1, 0], [0, 0, 1]],
    [[1, 0, 0], [0, 1, 0], [0, 0, 1]], []⟩

/-- A concrete ParameterSet over `ZMod 5` with `r_f = 4`, whose two
distinct start-constant vectors exhibit the transition round's reuse of
the last one. -/
def sp4 : Spec (ZMod 5) :=
  ⟨4, [[1, 2], [3, 4]], [], [], [[1, 0], [0, 1]], [[1, 0], [0, 1]], []⟩

end ConcreteSpecs

/-- Witness for `squeeze_returns_word_one`: a fully evaluated squeeze on
`specW` from the all-zero initial state. -/
theorem squeeze_returns_word_one_witness :
    PoseidonHash.squeeze 2 1 (PoseidonHash.new 2 specW)
        = some (0, (⟨specW, [2, 0], []⟩ : PoseidonHash (ZMod 5)))
      ∧ ((⟨specW, [2, 0], []⟩ : PoseidonHash (ZMod 5)).state[1]? = some 0
        ∧ (0 : ZMod 5) = (⟨specW, [2, 0], []⟩ : PoseidonHash (ZMod 5)).state.getD 1 0) :=
  ⟨by decide,
    squeeze_returns_word_one 2 1 (PoseidonHash.new 2 specW) 0 ⟨specW, [2, 0], []⟩ (by decide)⟩

/-! ## Claim theorems: dimension check (C8) -/

section DimensionClaims

variable {F : Type} [CommRing F]

/-- C8 counterexample: with `T = 3` and `RATE = 3 ≠ T - 1`, construction
of the hasher does not fail — `new` returns a fully formed hasher and
`update` (absorb) works on it — so the dimension invariant is not checked
at construction time; only the first squeeze aborts (in `pre_round`). -/
theorem construction_unchecked_counterexample :
    (3 : ℕ) ≠ 3 - 1
      ∧ PoseidonHash.new 3 spec3 = (⟨spec3, [0, 0, 0], []⟩ : PoseidonHash (ZMod 5))
      ∧ (PoseidonHash.new 3 spec3).update [1, 2]
          = (⟨spec3, [0, 0, 0], [1, 2]⟩ : PoseidonHash (ZMod 5))
      ∧ PoseidonHash.output 3 3 ((PoseidonHash.new 3 spec3).update [1, 2]) = none := by
  decide

/-- C8 (amended): construction performs no dimension check and always
succeeds; the invariant `RATE = T - 1` is enforced by the assertion in
`pre_round` at first use: when `RATE ≠ T - 1` every permutation and every
squeeze/output call aborts (`none`), while `new` and `update` still
succeed, so the hasher cannot produce any digest. -/
theorem dimension_checked_at_first_use (T RATE : ℕ) (sp : Spec F)
    (h : PoseidonHash F) (hRT : RATE ≠ T - 1) :
    PoseidonHash.new T sp = (⟨sp, List.replicate T 0, []⟩ : PoseidonHash F)
      ∧ (∀ inputs s0 : List F, permutation T RATE sp inputs s0 = none)
      ∧ PoseidonHash.output T RATE h = none
      ∧ PoseidonHash.squeeze T RATE h = none := by
  have hperm : ∀ (spx : Spec F) (inputs s0 : List F),
      permutation T RATE spx inputs s0 = none := by
    intro spx inputs s0
    unfold permutation
    cases startSchedule spx with
    | none => rfl
    | some sched =>
      rw [Option.some_bind, pre_round, if_neg (fun hc => hRT hc.1)]
      rfl
  have hout : PoseidonHash.output T RATE h = none := by
    unfold PoseidonHash.output
    cases hb : h.buf with
    | nil => simp [chunks_nil, hperm]
    | cons b bs => rw [chunks_cons]; simp [hperm]
  exact ⟨rfl, hperm sp, hout, by unfold PoseidonHash.squeeze; exact hout⟩

/-- Witness for `dimension_checked_at_first_use` at `T = 3`, `RATE = 3`,
on a hasher with a pending buffer. -/
theorem dimension_checked_at_first_use_witness :
    (3 : ℕ) ≠ 3 - 1
      ∧ (PoseidonHash.new 3 spec3 = (⟨spec3, List.replicate 3 0, []⟩ : PoseidonHash (ZMod 5))
        ∧ (∀ inputs s0 : List (ZMod 5), permutation 3 3 spec3 inputs s0 = none)
        ∧ PoseidonHash.output 3 3 ((PoseidonHash.new 3 spec3).update [1, 2]) = none
        ∧ PoseidonHash.squeeze 3 3 ((PoseidonHash.new 3 spec3).update [1, 2]) = none) :=
  ⟨by decide,
    dimension_checked_at_first_use 3 3 spec3
      ((PoseidonHash.new 3 spec3).update [1, 2]) (by decide)⟩

end DimensionClaims

/-! ## Claim theorems: first-half round schedule (C3) -/

section ScheduleClaims

variable {F : Type} [CommRing F]

theorem getLast?_eq_getD {α : Type} (d : α) :
    ∀ l : List α, l ≠ [] → l.getLast? = some (l.getD (l.length - 1) d)
  | [], h => absurd rfl h
  | [x], _ => rfl
  | x :: y :: ys, _ => by
    rw [List.getLast?_cons_cons, getLast?_eq_getD d (y :: ys) (by simp)]
    simp

/-- C3 counterexample: under the spec's own data model (`start_constants`
has `r_f/2` vectors, section 3), at a concrete parameter set with
`r_f = 4` and two distinct start vectors the further-full-round loop
consumes `[[3, 4]]` and the transition round consumes `[3, 4]` as well:
the usage sequence `constants[0] :: loop ++ [last]` contains the last
start-constant vector twice, refuting "no start-constant vector used
twice". -/
theorem start_constant_reuse_counterexample :
    startSchedule sp4 = some ([1, 2], [[3, 4]], [3, 4])
      ∧ sp4.start.length = sp4.r_f / 2
      ∧ sp4.start.Nodup
      ∧ ¬ ((([1, 2] : List (ZMod 5)) :: [[3, 4]]) ++ [[3, 4]]).Nodup := by
  decide

/-- C3 (amended): inside one permutation call, after the absorbing first
round, exactly `r_f/2 - 1` further full rounds are performed, consuming
every start-constant vector after the first, in order and none skipped
(the loop list is exactly `start.drop 1`, of length `r_f/2 - 1`); the
transition round then applies `sbox_full` with the last start-constant
vector `start_constants[r_f/2 - 1]` followed by `apply_dense` with the
pre-sparse matrix — but that last vector is the same one already consumed
by the final further full round, so (when `r_f/2 ≥ 2`) it is used twice
rather than each vector being used exactly once. -/
theorem start_schedule_amended (sp : Spec F)
    (hlen : sp.start.length = sp.r_f / 2) (h1 : 1 ≤ sp.r_f / 2) :
    ∃ c0 clast, sp.start.head? = some c0
      ∧ sp.start.getLast? = some clast
      ∧ startSchedule sp = some (c0, sp.start.drop 1, clast)
      ∧ (sp.start.drop 1).length = sp.r_f / 2 - 1
      ∧ clast = sp.start.getD (sp.r_f / 2 - 1) []
      ∧ (2 ≤ sp.r_f / 2 → clast ∈ sp.start.drop 1) := by
  obtain ⟨c, rest, hstart⟩ : ∃ c rest, sp.start = c :: rest := by
    cases hs : sp.start with
    | nil => rw [hs] at hlen; simp at hlen; omega
    | cons c rest => exact ⟨c, rest, rfl⟩
  have hne : sp.start ≠ [] := by rw [hstart]; simp
  have hlast := getLast?_eq_getD ([] : List F) sp.start hne
  have hlen1 : sp.start.length - 1 = sp.r_f / 2 - 1 := by omega
  have hrest : rest.length = sp.r_f / 2 - 1 := by
    have := hlen
    rw [hstart] at this
    simp at this
    omega
  refine ⟨c, sp.start.getD (sp.start.length - 1) [], ?_, hlast, ?_, ?_, ?_, ?_⟩
  · rw [hstart]; rfl
  · unfold startSchedule
    rw [hstart] at hlast ⊢
    simp only [List.head?_cons, Option.some_bind, hlast, Option.map_some, List.drop_one,
      List.tail_cons]
    rw [List.take_of_length_le (le_of_eq hrest)]
    rfl
  · rw [hstart, List.drop_one, List.tail_cons]
    exact hrest
  · rw [hlen1]
  · intro h2
    rw [hstart, List.drop_one, List.tail_cons]
    have hidx : (c :: rest).getD ((c :: rest).length - 1) []
        = rest.getD (rest.length - 1) [] := by
      simp only [List.length_cons, Nat.add_sub_cancel]
      obtain ⟨u, hu⟩ : ∃ u, rest.length = u + 1 := ⟨rest.length - 1, by omega⟩
      rw [hu, List.getD_cons_succ, Nat.add_sub_cancel]
    rw [hidx]
    have hb : rest.length - 1 < rest.length := by omega
    rw [List.getD_eq_getElem _ _ hb]
    exact List.getElem_mem hb

/-- Witness for `start_schedule_amended` at the concrete parameter set
`sp4` (two start vectors, `r_f = 4`). -/
theorem start_schedule_amended_witness :
    (sp4.start.length = sp4.r_f / 2 ∧ 1 ≤ sp4.r_f / 2)
      ∧ (∃ c0 clast, sp4.start.head? = some c0
        ∧ sp4.start.getLast? = some clast
        ∧ startSchedule sp4 = some (c0, sp4.start.drop 1, clast)
        ∧ (sp4.start.drop 1).length = sp4.r_f / 2 - 1
        ∧ clast = sp4.start.getD (sp4.r_f / 2 - 1) []
        ∧ (2 ≤ sp4.r_f / 2 → clast ∈ sp4.start.drop 1)) :=
  ⟨⟨by decide, by decide⟩, start_schedule_amended sp4 (by decide) (by decide)⟩

end ScheduleClaims

/-! ## Claim theorems: chunking safety (C6) -/

section ChunkingClaims

variable {F : Type} [CommRing F]

theorem permutation_length_some (T RATE r_p : ℕ) (sp : Spec F) (inputs s0 : List F)
    (hwf : sp.WF T RATE r_p) (hR : RATE = T - 1) (hT : 2 ≤ T)
    (hin : inputs.length ≤ RATE) :
    ∃ s1, permutation T RATE sp inputs s0 = some s1 ∧ s1.length = T := by
  obtain ⟨hrf, _, hstartlen, _, _, _, _, hmdslen, _, _, _, _, _⟩ := hwf
  obtain ⟨c, rest, hstart⟩ : ∃ c rest, sp.start = c :: rest := by
    cases hsx : sp.start with
    | nil => rw [hsx] at hstartlen; simp at hstartlen; omega
    | cons c rest => exact ⟨c, rest, rfl⟩
  have hne : sp.start ≠ [] := by rw [hstart]; simp
  have hlast := getLast?_eq_getD ([] : List F) sp.start hne
  have hsched : ∃ sched, startSchedule sp = some sched := by
    unfold startSchedule
    rw [hstart] at hlast ⊢
    simp only [List.head?_cons, Option.some_bind, hlast, Option.map_some]
    exact ⟨_, rfl⟩
  obtain ⟨sched, hsched⟩ := hsched
  unfold permutation
  rw [hsched, Option.some_bind, pre_round, if_pos ⟨hR, hin⟩, Option.some_bind]
  exact ⟨_, rfl, by rw [length_apply_mds]; exact hmdslen⟩

theorem foldlM_perm_some (T RATE r_p : ℕ) (sp : Spec F) (hwf : sp.WF T RATE r_p)
    (hR : RATE = T - 1) (hT : 2 ≤ T) :
    ∀ (cl : List (List F)) (st : List F), (∀ c ∈ cl, c.length ≤ RATE) → st.length = T →
      ∃ st', cl.foldlM (fun s c => permutation T RATE sp c s) st = some st'
        ∧ st'.length = T := by
  intro cl
  induction cl with
  | nil => intro st _ hst; exact ⟨st, rfl, hst⟩
  | cons c cl ih =>
    intro st hc hst
    obtain ⟨st1, h1, h1len⟩ := permutation_length_some T RATE r_p sp c st hwf hR hT
      (hc c (List.mem_cons_self c cl))
    obtain ⟨st', h2, h2len⟩ := ih st1 (fun d hd => hc d (List.mem_cons_of_mem c hd)) h1len
    refine ⟨st', ?_, h2len⟩
    rw [List.foldlM_cons, h1]
    simpa using h2

theorem output_length_some (T RATE r_p : ℕ) (h : PoseidonHash F)
    (hwf : h.spec.WF T RATE r_p) (hR : RATE = T - 1) (hT : 2 ≤ T)
    (hs : h.state.length = T) :
    ∃ d h2, PoseidonHash.output T RATE h = some (d, h2) := by
  have hR1 : 1 ≤ RATE := by omega
  obtain ⟨st1, h1, h1len⟩ := foldlM_perm_some T RATE r_p h.spec hwf hR hT
    (chunks RATE h.buf) h.state (chunks_length_le RATE hR1 h.buf.length h.buf rfl) hs
  unfold PoseidonHash.output
  rw [h1, Option.some_bind]
  by_cases hx : h.buf.length % RATE = 0
  · rw [if_pos hx]
    obtain ⟨st2, h2, h2len⟩ := permutation_length_some T RATE r_p h.spec [] st1 hwf hR hT
      (by simp)
    rw [h2, Option.some_bind]
    have hg : st2[1]? = some st2[1] := List.getElem?_eq_getElem (by omega)
    rw [hg, Option.some_bind]
    exact ⟨_, _, rfl⟩
  · rw [if_neg hx, Option.some_bind]
    have hg : st1[1]? = some st1[1] := List.getElem?_eq_getElem (by omega)
    rw [hg, Option.some_bind]
    exact ⟨_, _, rfl⟩

/-- C6 counterexample: at `RATE = 1` (the `T = 2` configuration), a
buffer of `RATE + 1 = 2` elements is split into exactly two chunks, but
its length is an exact multiple of `RATE` (`2 % 1 = 0`), so by
`output`'s definition the extra empty-input padding permutation also
fires — refuting the claim's "RATE+1 buffered elements produce exactly
two permutation calls and no extra padding call". -/
theorem chunking_rate_one_counterexample :
    chunks 1 ([0, 1] : List (ZMod 5)) = [[0], [1]]
      ∧ (chunks 1 ([0, 1] : List (ZMod 5))).length = 2
      ∧ ([0, 1] : List (ZMod 5)).length % 1 = 0
      ∧ (chunks 1 ([0, 1] : List (ZMod 5))
          ++ if ([0, 1] : List (ZMod 5)).length % 1 = 0 then [[]] else []).length = 3 := by
  decide

/-- C6 (amended): every chunk that squeeze passes to the permutation has
length at most `RATE`; a buffer of `n` elements produces `⌈n/RATE⌉`
chunks; for `RATE ≥ 2` a buffer of `RATE + 1` elements produces exactly
two chunks and no extra padding call (at `RATE = 1` the exact flag is
also set, so the padding call fires too); consequently, with
`RATE = T - 1`, `T ≥ 2`, a well-formed parameter set and a width-`T`
state, the over-capacity assertion in `pre_round` can never fire during
any sequence of absorb and squeeze calls: `output` always returns a
digest. -/
theorem chunking_safety_amended (T RATE r_p : ℕ) (h : PoseidonHash F)
    (hwf : h.spec.WF T RATE r_p) (hR : RATE = T - 1) (hT : 2 ≤ T)
    (hs : h.state.length = T) :
    (∀ c ∈ chunks RATE h.buf, c.length ≤ RATE)
      ∧ (chunks RATE h.buf).length = (h.buf.length + RATE - 1) / RATE
      ∧ (2 ≤ RATE → h.buf.length = RATE + 1 →
          (chunks RATE h.buf).length = 2 ∧ ¬ h.buf.length % RATE = 0)
      ∧ ∃ d h2, PoseidonHash.output T RATE h = some (d, h2) := by
  have hR1 : 1 ≤ RATE := by omega
  refine ⟨chunks_length_le RATE hR1 h.buf.length h.buf rfl,
    chunks_count RATE hR1 h.buf.length h.buf rfl, ?_, ?_⟩
  · intro hR2 hlen21
    constructor
    · rw [chunks_count RATE hR1 h.buf.length h.buf rfl, hlen21]
      have e1 : RATE + 1 + RATE - 1 = RATE * 2 := by omega
      rw [e1, Nat.mul_div_cancel_left 2 (by omega)]
    · rw [hlen21, Nat.add_mod_left, Nat.mod_eq_of_lt (by omega)]
      omega
  · exact output_length_some T RATE r_p h hwf hR hT hs

end ChunkingClaims

/-- A fully well-formed ParameterSet over `ZMod 5` for `T = 2`,
`RATE = 1`, `r_p = 1`. -/
def wfSpec : Spec (ZMod 5) :=
  ⟨2, [[1, 2]], [3], [[0, 1]], [[1, 0], [0, 1]], [[1, 1], [0, 1]], [⟨[1, 1], [2]⟩]⟩

/-- Witness for `chunking_safety_amended` at `T = 2`, `RATE = 1`,
`r_p = 1`, on a hasher with two buffered elements. -/
theorem chunking_safety_amended_witness :
    (Spec.WF wfSpec 2 1 1 ∧ 1 = 2 - 1 ∧ 2 ≤ 2
        ∧ ((⟨wfSpec, [0, 0], [4, 4]⟩ : PoseidonHash (ZMod 5)).state.length = 2))
      ∧ ((∀ c ∈ chunks 1 (⟨wfSpec, [0, 0], [4, 4]⟩ : PoseidonHash (ZMod 5)).buf, c.length ≤ 1)
        ∧ (chunks 1 (⟨wfSpec, [0, 0], [4, 4]⟩ : PoseidonHash (ZMod 5)).buf).length
            = ((⟨wfSpec, [0, 0], [4, 4]⟩ : PoseidonHash (ZMod 5)).buf.length + 1 - 1) / 1
        ∧ (2 ≤ 1 → (⟨wfSpec, [0, 0], [4, 4]⟩ : PoseidonHash (ZMod 5)).buf.length = 1 + 1 →
            (chunks 1 (⟨wfSpec, [0, 0], [4, 4]⟩ : PoseidonHash (ZMod 5)).buf).length = 2
              ∧ ¬ (⟨wfSpec, [0, 0], [4, 4]⟩ : PoseidonHash (ZMod 5)).buf.length % 1 = 0)
        ∧ ∃ d h2, PoseidonHash.output 2 1 (⟨wfSpec, [0, 0], [4, 4]⟩ : PoseidonHash (ZMod 5))
            = some (d, h2)) :=
  ⟨⟨by unfold Spec.WF; decide, by decide, by decide, by decide⟩,
    chunking_safety_amended 2 1 1 ⟨wfSpec, [0, 0], [4, 4]⟩
      (by unfold Spec.WF; decide) (by decide) (by decide) (by decide)⟩
